import Mathlib

/- Verification of the dice-roller plugin's roll engine and summary-post
   generation (src/server/plugin.go).  Queries, tokens and messages are
   modelled as lists of characters; the process-wide random source is an
   arbitrary function `rnd : Nat → Nat` supplying raw entropy values,
   consumed at a strictly advancing index so that independent draws are
   distinct applications of `rnd`. -/

namespace DiceRoller

/-- Whitespace test used by Go's `strings.Fields` / `strings.TrimSpace`
(`unicode.IsSpace`), restricted to the characters Lean recognises. -/
def isSpace (c : Char) : Bool := c.isWhitespace

/-- Embeds `strings.Fields`: accumulate the current word (reversed) and cut
at every whitespace run. -/
def fieldsAux : List Char → List Char → List (List Char)
  | [], acc => if acc = [] then [] else [acc.reverse]
  | c :: cs, acc =>
    if isSpace c then
      if acc = [] then fieldsAux cs [] else acc.reverse :: fieldsAux cs []
    else fieldsAux cs (c :: acc)

/-- Embeds `strings.Fields(query)` from src/server/plugin.go line 192. -/
def fields (s : List Char) : List (List Char) := fieldsAux s []

/-- Embeds `strings.TrimSpace`: drop whitespace from both ends. -/
def trimSpace (s : List Char) : List Char :=
  ((s.dropWhile isSpace).reverse.dropWhile isSpace).reverse

/-- Decimal digit test, `\d` of the token grammar. -/
def isDigitCh (c : Char) : Bool := c.isDigit

/-- Value of a string of decimal digits (Go `strconv.Atoi` on digit-only
input). -/
def digitsVal (cs : List Char) : Nat :=
  cs.foldl (fun a c => a * 10 + (c.toNat - 48)) 0

/-- Modelled from the spec: the parsed form of one roll-request token (the
roll engine's source file is not under src/).  A `dice` token rolls `count`
dice with `sides` sides, adding `m` to each die; a `modTok` token adds the
signed integer `m` to the total without rolling. -/
inductive Tok where
  | dice (count sides : Nat) (m : Int)
  | modTok (m : Int)
  deriving DecidableEq

/-- Modelled from the spec: split a token at its first `d`/`D` separator
(case-insensitive), returning the parts before and after it. -/
def splitAtD : List Char → Option (List Char × List Char)
  | [] => none
  | c :: cs =>
    if c = 'd' ∨ c = 'D' then some ([], cs)
    else
      match splitAtD cs with
      | none => none
      | some (a, b) => some (c :: a, b)

/-- Modelled from the spec: parse what follows the `d`/`D` separator — the
sides digits, optionally followed by an attached `+mod`/`-mod`. -/
def parseDiceTail (afterD : List Char) : Option (Nat × Int) :=
  let sidesPart := afterD.takeWhile isDigitCh
  let rest := afterD.dropWhile isDigitCh
  if sidesPart = [] then none
  else
    match rest with
    | [] => some (digitsVal sidesPart, 0)
    | '+' :: ms =>
      if ms ≠ [] ∧ ms.all isDigitCh then some (digitsVal sidesPart, (digitsVal ms : Int))
      else none
    | '-' :: ms =>
      if ms ≠ [] ∧ ms.all isDigitCh then some (digitsVal sidesPart, -(digitsVal ms : Int))
      else none
    | _ => none

/-- Modelled from the spec: classify one token, in the spec's priority order
(standalone signed modifier, then plain integer / dice expression with or
without attached per-die modifier); any other shape is invalid (`none`). -/
def parseToken (tok : List Char) : Option Tok :=
  match tok with
  | [] => none
  | '+' :: rest =>
    if rest ≠ [] ∧ rest.all isDigitCh then some (.modTok (digitsVal rest : Int)) else none
  | '-' :: rest =>
    if rest ≠ [] ∧ rest.all isDigitCh then some (.modTok (-(digitsVal rest : Int))) else none
  | _ =>
    if tok.all isDigitCh then some (.dice 1 (digitsVal tok) 0)
    else
      match splitAtD tok with
      | none => none
      | some (cPart, tail) =>
        if cPart.all isDigitCh then
          match parseDiceTail tail with
          | none => none
          | some (s, m) => some (.dice (if cPart = [] then 1 else digitsVal cPart) s m)
        else none

/-- Result kind: `numeric` produced die rolls, `modifier` only shifts the
total (the missing roll-engine file's `rollType` values). -/
inductive RollType where
  | numeric
  | modifier
  deriving DecidableEq

/-- Evaluated outcome of one token (`result` of `rollDice` in
src/server/plugin.go): `results` holds one integer per die rolled,
`sumModifier` the standalone modifier value. -/
structure RollResult where
  rollType : RollType
  results : List Int
  sumModifier : Int
  deriving DecidableEq

/-- Modelled from the spec: one uniform draw in `[1, sides]`, taken from the
raw entropy value at index `k`. -/
def rollDie (rnd : Nat → Nat) (k sides : Nat) : Nat := rnd k % sides + 1

/-- Modelled from the spec: evaluate one token (the roll engine's `rollDice`,
whose source file is not under src/).  Returns the token's `RollResult` and
the advanced entropy index, or `none` for an invalid token.  A dice token
rolls `count` independent dice and folds the attached per-die modifier into
each recorded outcome. -/
def rollDice (rnd : Nat → Nat) (k : Nat) (tok : List Char) : Option (RollResult × Nat) :=
  match parseToken tok with
  | none => none
  | some (.modTok m) => some (⟨.modifier, [], m⟩, k)
  | some (.dice c s m) =>
    some (⟨.numeric, (List.range c).map (fun i => (rollDie rnd (k + i) s : Int) + m), m⟩, k + c)

/-- Character of a decimal digit value. -/
def digitChar (n : Nat) : Char := Char.ofNat (48 + n)

/-- Fuel-driven decimal rendering, most significant digit first. -/
def natToCharsAux : Nat → Nat → List Char → List Char
  | 0, _, acc => acc
  | fuel + 1, n, acc =>
    if n < 10 then digitChar n :: acc
    else natToCharsAux fuel (n / 10) (digitChar (n % 10) :: acc)

/-- Decimal rendering of a natural number (Go `%d` on non-negative input). -/
def natToChars (n : Nat) : List Char := natToCharsAux (n + 1) n []

/-- Embeds Go `fmt.Sprintf("%d", i)`. -/
def intToChars (i : Int) : List Char :=
  if i < 0 then '-' :: natToChars i.natAbs else natToChars i.natAbs

/-- Embeds Go `fmt.Sprintf("%+d", i)` (explicit sign always shown). -/
def signedIntToChars (i : Int) : List Char :=
  if i < 0 then '-' :: natToChars i.natAbs else '+' :: natToChars i.natAbs

/-- Embeds the numeric-branch detail of src/server/plugin.go lines 211-217:
the token label, a colon, then each roll value followed by a space, finally
trimmed. -/
def numericDetail (tok : List Char) (rolls : List Int) : List Char :=
  trimSpace (rolls.foldl (fun acc r => acc ++ intToChars r ++ [' ']) (tok ++ [':', ' ']))

/-- Failure outcomes of evaluation (src/server/plugin.go lines 193-194 and
205-207): an empty request, or an invalid token named by the error. -/
inductive EvalError where
  | emptyRequest
  | invalidRequest (tok : List Char)
  deriving DecidableEq

/-- State accumulated by the token loop of src/server/plugin.go lines
196-222: the running total, the count of individual dice rolled, the
per-token detail slots, the ordered results, and the final entropy index. -/
structure LoopOut where
  sum : Int
  cnt : Nat
  details : List (List Char)
  results : List RollResult
  kEnd : Nat
  deriving DecidableEq

/-- The literal legacy keyword `"sum"`. -/
def sumKw : List Char := ['s', 'u', 'm']

/-- Embeds the token loop of src/server/plugin.go lines 199-222: a `"sum"`
token is skipped (leaving its detail slot empty), an invalid token aborts
with `invalidRequest`, a numeric result adds each roll to the total and
counts its dice, a modifier result adds its signed value. -/
def processTokens (rnd : Nat → Nat) (k : Nat) : List (List Char) → Except EvalError LoopOut
  | [] => .ok ⟨0, 0, [], [], k⟩
  | tok :: rest =>
    if tok = sumKw then
      match processTokens rnd k rest with
      | .error e => .error e
      | .ok o => .ok ⟨o.sum, o.cnt, [] :: o.details, o.results, o.kEnd⟩
    else
      match rollDice rnd k tok with
      | none => .error (.invalidRequest tok)
      | some (r, k1) =>
        match processTokens rnd k1 rest with
        | .error e => .error e
        | .ok o =>
          match r.rollType with
          | .numeric =>
            .ok ⟨r.results.sum + o.sum, r.results.length + o.cnt,
              numericDetail tok r.results :: o.details, r :: o.results, o.kEnd⟩
          | .modifier =>
            .ok ⟨r.sumModifier + o.sum, o.cnt,
              signedIntToChars r.sumModifier :: o.details, r :: o.results, o.kEnd⟩

/-- Embeds `filterEmptyString` of src/server/plugin.go lines 241-249. -/
def filterEmptyString (arr : List (List Char)) : List (List Char) :=
  arr.foldl (fun result val => if val ≠ [] then result ++ [val] else result) []

/-- The default token substituted for an all-whitespace query. -/
def tok100 : List Char := ['1', '0', '0']

/-- Embeds src/server/plugin.go lines 186-188: an all-whitespace query is
replaced by the default token `"100"`. -/
def effectiveQuery (q : List Char) : List Char := if trimSpace q = [] then tok100 else q

/-- The literal `"**"`. -/
def star2 : List Char := ['*', '*']

/-- The literal `"** rolls *"` between the display name and the query echo. -/
def litRollsMid : List Char := ['*', '*', ' ', 'r', 'o', 'l', 'l', 's', ' ', '*']

/-- The literal `"* = "` after the query echo. -/
def litEq : List Char := ['*', ' ', '=', ' ']

/-- The breakdown line separator `"\n- "`. -/
def nlDash : List Char := ['\n', '-', ' ']

/-- Embeds src/server/plugin.go lines 190 and 225: the message header
`"**<name>** rolls *<query>* = **<sum>**"`. -/
def rollHeader (name query : List Char) (total : Int) : List Char :=
  star2 ++ name ++ litRollsMid ++ query ++ litEq ++ star2 ++ intToChars total ++ star2

/-- Successful outcome of one invocation: the ordered results, the total,
the raw per-token detail slots, and the posted message text. -/
structure EvalOut where
  results : List RollResult
  total : Int
  details : List (List Char)
  message : List Char
  deriving DecidableEq

/-- Embeds `generateDicePost` of src/server/plugin.go lines 175-238 (its
roll-evaluation core: user lookup and post routing carry no logic).  The
query defaults to `"100"` when all-whitespace, fails `emptyRequest` when the
token list is empty or the query equals `"sum"`, evaluates the tokens in
order, always displays the total, and appends the `"\n- "`-joined non-empty
detail lines only when more than one individual die was rolled. -/
def generateDicePost (rnd : Nat → Nat) (displayName query0 : List Char) :
    Except EvalError EvalOut :=
  let query := effectiveQuery query0
  let rollRequests := fields query
  if rollRequests.length = 0 ∨ query = sumKw then .error .emptyRequest
  else
    match processTokens rnd 0 rollRequests with
    | .error e => .error e
    | .ok o =>
      let base := rollHeader displayName query o.sum
      let text :=
        if 1 < o.cnt then base ++ nlDash ++ List.intercalate nlDash (filterEmptyString o.details)
        else base
      .ok ⟨o.results, o.sum, o.details, text⟩

/-- Contribution of one result to the total: its rolls for a numeric result,
its modifier value for a modifier result. -/
def resultValue (r : RollResult) : Int :=
  match r.rollType with
  | .numeric => r.results.sum
  | .modifier => r.sumModifier

/-- Sum of all roll entries of numeric results plus all modifier values of
modifier results, over an ordered result sequence. -/
def resultsTotal (rs : List RollResult) : Int := (rs.map resultValue).sum

/-- Number of individual dice rolled across a result sequence. -/
def diceCount (rs : List RollResult) : Nat :=
  (rs.map (fun r => match r.rollType with | .numeric => r.results.length | .modifier => 0)).sum

/-- A result matches a token when its kind and shape agree with the token's
parse: a dice token yields a numeric result with `count` rolls, a modifier
token yields a modifier result carrying its value. -/
def matchesTok (tok : List Char) (r : RollResult) : Bool :=
  match parseToken tok with
  | some (.dice c _ _) => r.rollType == RollType.numeric && r.results.length == c
  | some (.modTok m) => r.rollType == RollType.modifier && r.sumModifier == m
  | none => false

/-- A fixed entropy source for concrete evaluations. -/
def rnd0 : Nat → Nat := fun _ => 0

/-- The decimal renderer never produces an empty list when it has fuel or a
seed. -/
theorem natToCharsAux_ne_nil :
    ∀ (fuel n : Nat) (acc : List Char), 0 < fuel ∨ acc ≠ [] →
      natToCharsAux fuel n acc ≠ []
  | 0, _, acc, h => by
    cases h with
    | inl h => omega
    | inr h => simpa [natToCharsAux] using h
  | fuel + 1, n, acc, _ => by
    rw [natToCharsAux]
    split
    · simp
    · exact natToCharsAux_ne_nil fuel (n / 10) _ (Or.inr (by simp))

/-- Rendering a natural number always yields at least one character. -/
theorem natToChars_ne_nil (n : Nat) : natToChars n ≠ [] :=
  natToCharsAux_ne_nil (n + 1) n [] (Or.inl (by omega))

/-- A `%+d`-rendered modifier is never the empty string. -/
theorem signedIntToChars_ne_nil (i : Int) : signedIntToChars i ≠ [] := by
  unfold signedIntToChars
  split <;> simp

/-- An all-whitespace trim result means every character was whitespace. -/
theorem trimSpace_eq_nil (s : List Char) (h : trimSpace s = []) :
    ∀ c ∈ s, isSpace c = true := by
  intro c hc
  unfold trimSpace at h
  rw [List.reverse_eq_nil_iff, List.dropWhile_eq_nil_iff] at h
  by_cases hmem : c ∈ s.dropWhile isSpace
  · exact h c (List.mem_reverse.mpr hmem)
  · rw [← List.takeWhile_append_dropWhile isSpace s] at hc
    rcases List.mem_append.mp hc with h1 | h2
    · exact List.mem_takeWhile_imp h1
    · exact absurd h2 hmem

/-- A list holding one non-whitespace character does not trim to empty. -/
theorem trimSpace_ne_nil (s : List Char) (c : Char) (hc : c ∈ s)
    (hns : isSpace c = false) : trimSpace s ≠ [] := fun h => by
  simpa [hns] using trimSpace_eq_nil s h c hc

/-- Trimming an all-whitespace list gives the empty list. -/
theorem trimSpace_eq_nil_of_all (s : List Char) (h : ∀ c ∈ s, isSpace c = true) :
    trimSpace s = [] := by
  unfold trimSpace
  rw [List.dropWhile_eq_nil_iff.mpr h]
  simp

/-- If the field splitter returns nothing, the input was all whitespace and
no word was pending. -/
theorem fieldsAux_eq_nil :
    ∀ (q acc : List Char), fieldsAux q acc = [] →
      (∀ c ∈ q, isSpace c = true) ∧ acc = []
  | [], acc, h => by
    refine ⟨by simp, ?_⟩
    by_contra hne
    rw [fieldsAux, if_neg hne] at h
    exact absurd h (by simp)
  | c :: cs, acc, h => by
    rw [fieldsAux] at h
    split at h
    · split at h
      · have ih := fieldsAux_eq_nil cs [] h
        refine ⟨?_, by assumption⟩
        intro x hx
        rcases List.mem_cons.mp hx with rfl | hx
        · assumption
        · exact ih.1 x hx
      · exact absurd h (by simp)
    · have ih := fieldsAux_eq_nil cs (c :: acc) h
      exact absurd ih.2 (by simp)

/-- An empty field list forces an all-whitespace query, hence an empty
trim. -/
theorem trimSpace_eq_nil_of_fields (q : List Char) (h : fields q = []) :
    trimSpace q = [] :=
  trimSpace_eq_nil_of_all q (fieldsAux_eq_nil q [] h).1

/-- Membership in the seed survives the numeric-detail accumulation. -/
theorem mem_foldl_append (x : Char) :
    ∀ (l : List Int) (acc : List Char), x ∈ acc →
      x ∈ l.foldl (fun a r => a ++ intToChars r ++ [' ']) acc
  | [], _, h => h
  | r :: rs, acc, h =>
    mem_foldl_append x rs (acc ++ intToChars r ++ [' ']) (by simp [h])

/-- A numeric detail line is never empty: it always shows the colon. -/
theorem numericDetail_ne_nil (tok : List Char) (rolls : List Int) :
    numericDetail tok rolls ≠ [] := by
  apply trimSpace_ne_nil _ ':'
  · exact mem_foldl_append ':' rolls _ (by simp)
  · decide

/-- The empty-string filter is the standard filter, shifted by its
accumulator. -/
theorem filterEmptyString_foldl :
    ∀ (l acc : List (List Char)),
      l.foldl (fun result val => if val ≠ [] then result ++ [val] else result) acc =
        acc ++ l.filter (fun v => decide (v ≠ []))
  | [], acc => by simp
  | v :: vs, acc => by
    rw [List.foldl_cons, List.filter_cons, filterEmptyString_foldl vs]
    by_cases hv : v = []
    · simp [hv]
    · simp [hv]

/-- `filterEmptyString` keeps exactly the non-empty entries, in order. -/
theorem filterEmptyString_eq_filter (l : List (List Char)) :
    filterEmptyString l = l.filter (fun v => decide (v ≠ [])) := by
  rw [filterEmptyString, filterEmptyString_foldl]
  simp

/-- The filtered detail list never contains an empty line. -/
theorem nil_not_mem_filterEmptyString (l : List (List Char)) :
    [] ∉ filterEmptyString l := by
  rw [filterEmptyString_eq_filter]
  intro h
  simpa using (List.mem_filter.mp h).2

/-- Token evaluation fails exactly on the tokens the grammar rejects. -/
theorem rollDice_eq_none (rnd : Nat → Nat) (k : Nat) (tok : List Char) :
    rollDice rnd k tok = none ↔ parseToken tok = none := by
  unfold rollDice
  split <;> simp_all

/-- Loop invariant: an accepted run's total and dice count are determined by
its result sequence, and it fills one detail slot per token. -/
theorem processTokens_ok_inv (rnd : Nat → Nat) :
    ∀ (toks : List (List Char)) (k : Nat) (o : LoopOut),
      processTokens rnd k toks = .ok o →
      o.sum = resultsTotal o.results ∧ o.cnt = diceCount o.results ∧
        o.details.length = toks.length
  | [], k, o, h => by
    rw [processTokens] at h
    injection h with h
    subst h
    simp [resultsTotal, diceCount]
  | tok :: rest, k, o, h => by
    rw [processTokens] at h
    split at h
    · split at h
      · exact absurd h (by simp)
      · injection h with h
        subst h
        have ih := processTokens_ok_inv rnd rest k _ (by assumption)
        simpa using ih
    · split at h
      · exact absurd h (by simp)
      · rename_i r k1 _
        split at h
        · exact absurd h (by simp)
        · rename_i o' hrest
          split at h <;> rename_i hty <;> injection h with h <;> subst h <;>
            have ih := processTokens_ok_inv rnd rest k1 o' hrest
          · refine ⟨?_, ?_, by simpa using ih.2.2⟩
            · simp [resultsTotal, resultValue, hty, ih.1]
            · simp [diceCount, hty, ih.2.1]
          · refine ⟨?_, ?_, by simpa using ih.2.2⟩
            · simp [resultsTotal, resultValue, hty, ih.1]
            · simp [diceCount, hty, ih.2.1]

/-- Any loop failure is an invalid-token failure, and it names a token of
the list that is not the legacy keyword and that the grammar rejects. -/
theorem processTokens_error_shape (rnd : Nat → Nat) :
    ∀ (toks : List (List Char)) (k : Nat) (e : EvalError),
      processTokens rnd k toks = .error e →
      ∃ t, t ∈ toks ∧ t ≠ sumKw ∧ parseToken t = none ∧ e = .invalidRequest t
  | [], _, _, h => by
    rw [processTokens] at h
    exact absurd h (by simp)
  | tok :: rest, k, e, h => by
    rw [processTokens] at h
    split at h
    · split at h
      · rename_i hrest
        injection h with h
        subst h
        obtain ⟨t, ht, hns, hp, he⟩ := processTokens_error_shape rnd rest k _ hrest
        exact ⟨t, List.mem_cons_of_mem _ ht, hns, hp, he⟩
      · exact absurd h (by simp)
    · rename_i hne
      split at h
      · rename_i hroll
        injection h with h
        subst h
        exact ⟨tok, List.mem_cons_self _ _, hne,
          (rollDice_eq_none rnd k tok).mp hroll, rfl⟩
      · rename_i r k1 _
        split at h
        · rename_i hrest
          injection h with h
          subst h
          obtain ⟨t, ht, hns, hp, he⟩ := processTokens_error_shape rnd rest k1 _ hrest
          exact ⟨t, List.mem_cons_of_mem _ ht, hns, hp, he⟩
        · split at h <;> exact absurd h (by simp)

/-- An accepted run means every token was the legacy keyword or parsed. -/
theorem processTokens_ok_valid (rnd : Nat → Nat) :
    ∀ (toks : List (List Char)) (k : Nat) (o : LoopOut),
      processTokens rnd k toks = .ok o →
      ∀ t ∈ toks, t = sumKw ∨ ¬parseToken t = none
  | [], _, _, _ => by simp
  | tok :: rest, k, o, h => by
    rw [processTokens] at h
    split at h
    · rename_i hsum
      split at h
      · exact absurd h (by simp)
      · rename_i o' hrest
        intro t ht
        rcases List.mem_cons.mp ht with rfl | ht
        · exact Or.inl hsum
        · exact processTokens_ok_valid rnd rest k o' hrest t ht
    · rename_i hne
      split at h
      · exact absurd h (by simp)
      · rename_i r k1 hroll
        split at h
        · exact absurd h (by simp)
        · rename_i o' hrest
          intro t ht
          rcases List.mem_cons.mp ht with rfl | ht
          · refine Or.inr fun hp => ?_
            rw [(rollDice_eq_none rnd k t).mpr hp] at hroll
            exact absurd hroll (by simp)
          · exact processTokens_ok_valid rnd rest k1 o' hrest t ht

/-- The result sequence lines up, in order, with the non-keyword tokens:
each result's kind and roll count agree with its own token's parse. -/
theorem processTokens_forall2 (rnd : Nat → Nat) :
    ∀ (toks : List (List Char)) (k : Nat) (o : LoopOut),
      processTokens rnd k toks = .ok o →
      List.Forall₂ (fun t r => matchesTok t r = true)
        (toks.filter (fun t => decide (t ≠ sumKw))) o.results
  | [], k, o, h => by
    rw [processTokens] at h
    injection h with h
    subst h
    exact List.Forall₂.nil
  | tok :: rest, k, o, h => by
    rw [processTokens] at h
    split at h
    · rename_i hsum
      split at h
      · exact absurd h (by simp)
      · rename_i o' hrest
        injection h with h
        subst h
        rw [List.filter_cons, if_neg (by simp [hsum])]
        simpa using processTokens_forall2 rnd rest k o' hrest
    · rename_i hne
      split at h
      · exact absurd h (by simp)
      · rename_i r k1 hroll
        split at h
        · exact absurd h (by simp)
        · rename_i o' hrest
          rw [List.filter_cons, if_pos (by simp [hne])]
          have hmatch : matchesTok tok r = true := by
            unfold rollDice at hroll
            unfold matchesTok
            split at hroll
            · exact absurd hroll (by simp)
            · rename_i m hp
              rw [hp]
              injection hroll with hroll
              injection hroll with hr _
              subst hr
              simp
            · rename_i c s m hp
              rw [hp]
              injection hroll with hroll
              injection hroll with hr _
              subst hr
              simp
          split at h <;> injection h with h <;> subst h <;>
            exact List.Forall₂.cons hmatch (processTokens_forall2 rnd rest k1 o' hrest)

/-- Dropping the legacy `"sum"` tokens changes nothing but the detail slots:
the filtered token list accepts with the same total, dice count, results and
final entropy index, and with exactly the non-empty detail lines. -/
theorem processTokens_filter_sums (rnd : Nat → Nat) :
    ∀ (toks : List (List Char)) (k : Nat) (o : LoopOut),
      processTokens rnd k toks = .ok o →
      processTokens rnd k (toks.filter (fun t => decide (t ≠ sumKw))) =
        .ok ⟨o.sum, o.cnt, filterEmptyString o.details, o.results, o.kEnd⟩
  | [], k, o, h => by
    rw [processTokens] at h
    injection h with h
    subst h
    rw [List.filter_nil, processTokens]
    simp [filterEmptyString]
  | tok :: rest, k, o, h => by
    rw [processTokens] at h
    split at h
    · rename_i hsum
      split at h
      · exact absurd h (by simp)
      · rename_i o' hrest
        injection h with h
        subst h
        rw [List.filter_cons, if_neg (by simp [hsum])]
        have ih := processTokens_filter_sums rnd rest k o' hrest
        rw [ih]
        simp only [filterEmptyString_eq_filter, List.filter_cons]
        rw [if_neg (by simp)]
    · rename_i hne
      split at h
      · exact absurd h (by simp)
      · rename_i r k1 hroll
        split at h
        · exact absurd h (by simp)
        · rename_i o' hrest
          have ih := processTokens_filter_sums rnd rest k1 o' hrest
          rw [List.filter_cons, if_pos (by simp [hne]), processTokens, if_neg hne]
          split at h <;> rename_i hty <;> injection h with h <;> subst h <;>
            simp only [hroll, ih, hty, filterEmptyString_eq_filter, List.filter_cons]
          · rw [if_pos (by simpa using numericDetail_ne_nil tok r.results)]
          · rw [if_pos (by simpa using signedIntToChars_ne_nil r.sumModifier)]

/-- Inversion of a successful invocation: the output is the token loop's
outcome, and the message is the header optionally followed by the joined
non-empty detail lines. -/
theorem generateDicePost_ok_inv (rnd : Nat → Nat) (name query : List Char)
    (out : EvalOut) (h : generateDicePost rnd name query = .ok out) :
    ∃ o : LoopOut,
      processTokens rnd 0 (fields (effectiveQuery query)) = .ok o ∧
      out.results = o.results ∧ out.total = o.sum ∧ out.details = o.details ∧
      out.message =
        (if 1 < o.cnt then
          rollHeader name (effectiveQuery query) o.sum ++ nlDash ++
            List.intercalate nlDash (filterEmptyString o.details)
        else rollHeader name (effectiveQuery query) o.sum) := by
  simp only [generateDicePost] at h
  split at h
  · exact absurd h (by simp)
  · split at h
    · exact absurd h (by simp)
    · rename_i o hp
      injection h with h
      subst h
      exact ⟨o, hp, rfl, rfl, rfl, rfl⟩

/-- C1: for every successfully evaluated query, the returned total equals
the sum of all `rolls` entries across the numeric results plus all modifier
values across the modifier results of the ordered result sequence. -/
theorem total_eq_resultsTotal (rnd : Nat → Nat) (name query : List Char)
    (out : EvalOut) (h : generateDicePost rnd name query = .ok out) :
    out.total = resultsTotal out.results := by
  obtain ⟨o, hp, hres, htot, -, -⟩ := generateDicePost_ok_inv rnd name query out h
  rw [htot, hres]
  exact (processTokens_ok_inv rnd _ 0 o hp).1

/-- Witness for C1 at the concrete query `"2d6 +3"`. -/
theorem total_eq_resultsTotal_witness :
    ∃ out, generateDicePost rnd0 ['u'] ['2', 'd', '6', ' ', '+', '3'] = .ok out ∧
      out.total = resultsTotal out.results :=
  ⟨_, rfl, total_eq_resultsTotal rnd0 ['u'] ['2', 'd', '6', ' ', '+', '3'] _ rfl⟩

/-- C2: a query holding a token the grammar rejects fails with an
invalid-request error naming an offending token of that query, and no
result value is returned (the whole query aborts). -/
theorem invalidToken_aborts (rnd : Nat → Nat) (name query tok : List Char)
    (hmem : tok ∈ fields (effectiveQuery query)) (hbad : parseToken tok = none)
    (hns : tok ≠ sumKw) :
    ∃ t, t ∈ fields (effectiveQuery query) ∧ parseToken t = none ∧ t ≠ sumKw ∧
      generateDicePost rnd name query = .error (.invalidRequest t) := by
  have hcond : ¬((fields (effectiveQuery query)).length = 0 ∨
      effectiveQuery query = sumKw) := by
    rintro (h0 | hq)
    · rw [List.length_eq_zero] at h0
      rw [h0] at hmem
      exact absurd hmem (List.not_mem_nil tok)
    · rw [hq, show fields sumKw = [sumKw] from by decide] at hmem
      simp at hmem
      exact hns hmem
  cases hres : processTokens rnd 0 (fields (effectiveQuery query)) with
  | error e =>
    obtain ⟨t, ht, hns', hp', he⟩ := processTokens_error_shape rnd _ 0 e hres
    refine ⟨t, ht, hp', hns', ?_⟩
    simp only [generateDicePost]
    rw [if_neg hcond]
    simp only [hres, he]
  | ok o =>
    rcases processTokens_ok_valid rnd _ 0 o hres tok hmem with h1 | h2
    · exact absurd h1 hns
    · exact absurd hbad h2

/-- Witness for C2 at the concrete query `"abc"`. -/
theorem invalidToken_aborts_witness :
    ∃ t, t ∈ fields (effectiveQuery ['a', 'b', 'c']) ∧ parseToken t = none ∧
      t ≠ sumKw ∧
      generateDicePost rnd0 ['u'] ['a', 'b', 'c'] = .error (.invalidRequest t) :=
  invalidToken_aborts rnd0 ['u'] ['a', 'b', 'c'] ['a', 'b', 'c']
    (by decide) (by decide) (by decide)

/-- C3 counterexample: the query `"sum sum"` contains no evaluable token
after stripping the legacy keyword, yet evaluation succeeds with total `0`
and an empty result sequence instead of failing with the empty-request
error. -/
theorem sumSum_evaluates_ok :
    generateDicePost rnd0 ['u'] ['s', 'u', 'm', ' ', 's', 'u', 'm'] =
      .ok ⟨[], 0, [[], []],
        ['*', '*', 'u', '*', '*', ' ', 'r', 'o', 'l', 'l', 's', ' ', '*',
         's', 'u', 'm', ' ', 's', 'u', 'm', '*', ' ', '=', ' ',
         '*', '*', '0', '*', '*']⟩ := rfl

/-- C3 amended: evaluation fails with the empty-request error exactly when
the query is the literal `"sum"`; a query whose tokens are several `"sum"`
keywords (no evaluable tokens) still succeeds, with total `0`. -/
theorem emptyRequest_iff_query_sum (rnd : Nat → Nat) (name query : List Char) :
    generateDicePost rnd name query = .error .emptyRequest ↔ query = sumKw := by
  constructor
  · intro h
    simp only [generateDicePost] at h
    by_cases htr : trimSpace query = []
    · exfalso
      rw [show effectiveQuery query = tok100 from if_pos htr] at h
      rw [if_neg (by decide)] at h
      cases hres : processTokens rnd 0 (fields tok100) with
      | error e =>
        obtain ⟨t, -, -, -, he⟩ := processTokens_error_shape rnd _ 0 e hres
        rw [hres, he] at h
        simp at h
      | ok o =>
        rw [hres] at h
        simp at h
    · rw [show effectiveQuery query = query from if_neg htr] at h
      by_cases hcond : (fields query).length = 0 ∨ query = sumKw
      · rcases hcond with h0 | hq
        · rw [List.length_eq_zero] at h0
          exact absurd (trimSpace_eq_nil_of_fields query h0) htr
        · exact hq
      · exfalso
        rw [if_neg hcond] at h
        cases hres : processTokens rnd 0 (fields query) with
        | error e =>
          obtain ⟨t, -, -, -, he⟩ := processTokens_error_shape rnd _ 0 e hres
          rw [hres, he] at h
          simp at h
        | ok o =>
          rw [hres] at h
          simp at h
  · intro hq
    subst hq
    simp only [generateDicePost]
    rw [show effectiveQuery sumKw = sumKw from by decide]
    rw [if_pos (Or.inr rfl)]

/-- C4: a query that is empty after removing whitespace evaluates exactly
like the default query `"100"` under the same random source state. -/
theorem allWhitespace_query_defaults (rnd : Nat → Nat) (name query : List Char)
    (h : trimSpace query = []) :
    generateDicePost rnd name query = generateDicePost rnd name tok100 := by
  simp only [generateDicePost]
  rw [show effectiveQuery query = tok100 from if_pos h,
    show effectiveQuery tok100 = tok100 from if_neg (by decide)]

/-- Witness for C4 at the one-space query. -/
theorem allWhitespace_query_defaults_witness :
    trimSpace [' '] = [] ∧
      generateDicePost rnd0 ['u'] [' '] = generateDicePost rnd0 ['u'] tok100 :=
  ⟨by decide, allWhitespace_query_defaults rnd0 ['u'] [' '] (by decide)⟩

/-- C5: the per-token detail breakdown is appended to the summary message
if and only if more than one individual die was rolled across the whole
query. -/
theorem breakdown_iff_multiple_dice (rnd : Nat → Nat) (name query : List Char)
    (out : EvalOut) (h : generateDicePost rnd name query = .ok out) :
    (∃ rest, out.message =
        rollHeader name (effectiveQuery query) out.total ++ nlDash ++ rest) ↔
      1 < diceCount out.results := by
  obtain ⟨o, hp, hres, htot, -, hmsg⟩ := generateDicePost_ok_inv rnd name query out h
  have hcnt : o.cnt = diceCount o.results := (processTokens_ok_inv rnd _ 0 o hp).2.1
  rw [hres, ← hcnt, htot, hmsg]
  by_cases hc : 1 < o.cnt
  · rw [if_pos hc]
    exact ⟨fun _ => hc, fun _ => ⟨_, rfl⟩⟩
  · rw [if_neg hc]
    constructor
    · rintro ⟨rest, heq⟩
      simpa [nlDash] using congrArg List.length heq
    · intro hc'
      exact absurd hc' hc

/-- Witness for C5 at the concrete query `"2d6"` (two dice rolled). -/
theorem breakdown_iff_multiple_dice_witness :
    ∃ out, generateDicePost rnd0 ['u'] ['2', 'd', '6'] = .ok out ∧
      ((∃ rest, out.message =
          rollHeader ['u'] (effectiveQuery ['2', 'd', '6']) out.total ++
            nlDash ++ rest) ↔
        1 < diceCount out.results) :=
  ⟨_, rfl, breakdown_iff_multiple_dice rnd0 ['u'] ['2', 'd', '6'] _ rfl⟩

/-- C6 counterexample: at the query `"100"` with display name `"a"` the
total is `1`, yet the posted message does not begin with the bolded total
`"**1**"` — the display-name header precedes it. -/
theorem message_not_sum_first :
    (generateDicePost rnd0 ['a'] tok100).toOption.map
        (fun o => (o.total,
          List.isPrefixOf (star2 ++ intToChars o.total ++ star2) o.message)) =
      some (1, false) := rfl

/-- C6 amended: a successful invocation's message is the header
`"**<name>** rolls *<query>* = **<sum>**"` (display name and query echo
precede the bolded sum), optionally followed by the `"\n- "`-joined
breakdown lines, and nothing else. -/
theorem message_header_then_breakdown (rnd : Nat → Nat) (name query : List Char)
    (out : EvalOut) (h : generateDicePost rnd name query = .ok out) :
    ∃ tail, out.message = rollHeader name (effectiveQuery query) out.total ++ tail ∧
      (tail = [] ∨ ∃ rest, tail = nlDash ++ rest) := by
  obtain ⟨o, -, -, htot, -, hmsg⟩ := generateDicePost_ok_inv rnd name query out h
  rw [hmsg, htot]
  by_cases hc : 1 < o.cnt
  · rw [if_pos hc]
    exact ⟨nlDash ++ List.intercalate nlDash (filterEmptyString o.details),
      by simp, Or.inr ⟨_, rfl⟩⟩
  · rw [if_neg hc]
    exact ⟨[], by simp, Or.inl rfl⟩

/-- Witness for the amended C6 at the concrete query `"2d6"`. -/
theorem message_header_then_breakdown_witness :
    ∃ out, generateDicePost rnd0 ['u'] ['2', 'd', '6'] = .ok out ∧
      ∃ tail, out.message =
          rollHeader ['u'] (effectiveQuery ['2', 'd', '6']) out.total ++ tail ∧
        (tail = [] ∨ ∃ rest, tail = nlDash ++ rest) :=
  ⟨_, rfl, message_header_then_breakdown rnd0 ['u'] ['2', 'd', '6'] _ rfl⟩

/-- A non-empty all-digit token parses as one die with that many sides and
no modifier (`"N"` is `"1dN"`). -/
theorem parseToken_digits (tok : List Char) (hne : tok ≠ [])
    (hall : tok.all isDigitCh = true) :
    parseToken tok = some (.dice 1 (digitsVal tok) 0) := by
  cases tok with
  | nil => exact absurd rfl hne
  | cons c0 cs =>
    have hc0 : isDigitCh c0 = true := by
      simp only [List.all_cons, Bool.and_eq_true] at hall
      exact hall.1
    unfold parseToken
    split
    · rename_i heq
      exact absurd heq (by simp)
    · rename_i rest heq
      injection heq with h1 _
      rw [h1] at hc0
      exact absurd hc0 (by decide)
    · rename_i rest heq
      injection heq with h1 _
      rw [h1] at hc0
      exact absurd hc0 (by decide)
    · rw [if_pos hall]

/-- C7 (roll engine modelled from the spec): a token parsed as a dice
expression rolls exactly `count` dice — every entry of `rolls` lies in
`[1, sides]` shifted by the attached per-die modifier — and a plain
all-digit token parses with count 1, its value as sides and no modifier. -/
theorem rollDice_count_and_range (tok : List Char) (c s : Nat) (m : Int)
    (rnd : Nat → Nat) (k : Nat)
    (hp : parseToken tok = some (.dice c s m)) (hs : 1 ≤ s) :
    (∃ rolls, rollDice rnd k tok = some (⟨.numeric, rolls, m⟩, k + c) ∧
      rolls.length = c ∧ ∀ x ∈ rolls, 1 + m ≤ x ∧ x ≤ (s : Int) + m) ∧
    (tok.all isDigitCh = true → c = 1 ∧ s = digitsVal tok ∧ m = 0) := by
  constructor
  · refine ⟨(List.range c).map (fun i => (rollDie rnd (k + i) s : Int) + m),
      ?_, by simp, ?_⟩
    · unfold rollDice
      rw [hp]
    · intro x hx
      simp only [List.mem_map, List.mem_range] at hx
      obtain ⟨i, hi, rfl⟩ := hx
      have hmod : rnd (k + i) % s < s := Nat.mod_lt _ (by omega)
      unfold rollDie
      push_cast
      omega
  · intro hall
    have hne : tok ≠ [] := by
      intro h0
      rw [h0] at hp
      exact absurd hp (by simp [parseToken])
    have hd := parseToken_digits tok hne hall
    rw [hp] at hd
    injection hd with hd
    injection hd with h1 h2 h3
    exact ⟨h1, h2, h3⟩

/-- Witness for C7 at the token `"100"`. -/
theorem rollDice_count_and_range_witness :
    (∃ rolls, rollDice rnd0 0 tok100 = some (⟨.numeric, rolls, 0⟩, 0 + 1) ∧
      rolls.length = 1 ∧ ∀ x ∈ rolls, 1 + 0 ≤ x ∧ x ≤ ((100 : Nat) : Int) + 0) ∧
    (tok100.all isDigitCh = true → 1 = 1 ∧ 100 = digitsVal tok100 ∧ (0 : Int) = 0) :=
  rollDice_count_and_range tok100 1 100 0 rnd0 0 (by decide) (by decide)

/-- C8 (roll engine modelled from the spec): evaluating `"5D6+3"` yields a
single numeric result of exactly 5 integers, each in `[4, 9]` — the
modifier is folded into every individual die, not added once. -/
theorem perDie_modifier_5D6plus3 (rnd : Nat → Nat) (name : List Char) :
    ∃ out, generateDicePost rnd name ['5', 'D', '6', '+', '3'] = .ok out ∧
      ∃ r, out.results = [r] ∧ r.rollType = .numeric ∧ r.results.length = 5 ∧
        ∀ x ∈ r.results, 4 ≤ x ∧ x ≤ 9 := by
  refine ⟨_, rfl, _, rfl, rfl,
    by simp [show digitsVal ['5'] = 5 from by decide], ?_⟩
  intro x hx
  simp only [List.mem_map, List.mem_range] at hx
  obtain ⟨i, hi, rfl⟩ := hx
  simp only [show digitsVal (List.takeWhile isDigitCh ['6', '+', '3']) = 6 from by decide,
    show digitsVal ['3'] = 3 from by decide,
    show (if (['5'] : List Char) = [] then 1 else digitsVal ['5']) = 5 from by decide]
  have hmod : rnd (0 + i) % 6 < 6 := Nat.mod_lt _ (by omega)
  unfold rollDie
  push_cast
  omega

/-- C9: the result sequence follows the insertion order of the query's
tokens — positionally, each non-keyword token's parse matches the kind and
roll count of its own result. -/
theorem results_follow_token_order (rnd : Nat → Nat) (name query : List Char)
    (out : EvalOut) (h : generateDicePost rnd name query = .ok out) :
    List.Forall₂ (fun t r => matchesTok t r = true)
      ((fields (effectiveQuery query)).filter (fun t => decide (t ≠ sumKw)))
      out.results := by
  obtain ⟨o, hp, hres, -, -, -⟩ := generateDicePost_ok_inv rnd name query out h
  rw [hres]
  exact processTokens_forall2 rnd _ 0 o hp

/-- Witness for C9 at the concrete query `"5 D8 13D20"`. -/
theorem results_follow_token_order_witness :
    ∃ out, generateDicePost rnd0 ['u']
        ['5', ' ', 'D', '8', ' ', '1', '3', 'D', '2', '0'] = .ok out ∧
      List.Forall₂ (fun t r => matchesTok t r = true)
        ((fields (effectiveQuery
            ['5', ' ', 'D', '8', ' ', '1', '3', 'D', '2', '0'])).filter
          (fun t => decide (t ≠ sumKw))) out.results :=
  ⟨_, rfl, results_follow_token_order rnd0 ['u']
    ['5', ' ', 'D', '8', ' ', '1', '3', 'D', '2', '0'] _ rfl⟩

/-- C10: the legacy `"sum"` tokens contribute nothing — evaluating only the
non-keyword tokens reproduces the same total, dice count and result
sequence, with exactly the non-empty detail lines — and the rendered
breakdown, filtered before the join, never contains an empty line. -/
theorem sum_tokens_contribute_nothing (rnd : Nat → Nat) (name query : List Char)
    (out : EvalOut) (h : generateDicePost rnd name query = .ok out) :
    [] ∉ filterEmptyString out.details ∧
    ∃ kEnd, processTokens rnd 0
        ((fields (effectiveQuery query)).filter (fun t => decide (t ≠ sumKw))) =
      .ok ⟨out.total, diceCount out.results, filterEmptyString out.details,
        out.results, kEnd⟩ := by
  obtain ⟨o, hp, hres, htot, hdet, -⟩ := generateDicePost_ok_inv rnd name query out h
  have hinv := processTokens_ok_inv rnd _ 0 o hp
  refine ⟨nil_not_mem_filterEmptyString _, o.kEnd, ?_⟩
  rw [hres, htot, hdet, ← hinv.2.1]
  exact processTokens_filter_sums rnd _ 0 o hp

/-- Witness for C10 at the concrete query `"2d6 sum +3"`. -/
theorem sum_tokens_contribute_nothing_witness :
    ∃ out, generateDicePost rnd0 ['u']
        ['2', 'd', '6', ' ', 's', 'u', 'm', ' ', '+', '3'] = .ok out ∧
      ([] ∉ filterEmptyString out.details ∧
      ∃ kEnd, processTokens rnd0 0
          ((fields (effectiveQuery
              ['2', 'd', '6', ' ', 's', 'u', 'm', ' ', '+', '3'])).filter
            (fun t => decide (t ≠ sumKw))) =
        .ok ⟨out.total, diceCount out.results, filterEmptyString out.details,
          out.results, kEnd⟩) :=
  ⟨_, rfl, sum_tokens_contribute_nothing rnd0 ['u']
    ['2', 'd', '6', ' ', 's', 'u', 'm', ' ', '+', '3'] _ rfl⟩

end DiceRoller
